import Mathlib

/-!
Verification of the tic-tac-toe move-decision engine of this repository.

The embedded functions come from:
* `src/tic-tac-toe/src/App.js` : `checkWinner`, `calculateWinner`,
  `minimax`, `findBestMove` (fixed 3x3 board);
* `src/unnamed/part_000` : `checkGenericWinner` (defensive NxM variant),
  `minimax`, `findBestMove` (NxM board);
* `src/unnamed/part_002` : `checkGenericWinner` (NxM variant without the
  length guard).

JS cell values "X" / "O" / null are modelled as `Option Mark`; a board is
the row-major list of its cells.  A JS read `board[idx]` that is out of
range yields `undefined`, which every use site treats exactly like `null`
(falsy, and `===`-different from "X"/"O"), so it is modelled as `none`
via `List.get?`.
-/

/-- A player's mark: JS string "X" or "O". -/
inductive Mark where
  | X : Mark
  | O : Mark
deriving DecidableEq

/-- A cell: `none` models JS `null` (and out-of-range `undefined`). -/
abbrev Cell := Option Mark

/-- A board: the row-major list of cells (index = row * cols + col). -/
abbrev Board := List Cell

/-- The other player's mark. -/
def flipMark : Mark → Mark
  | Mark.X => Mark.O
  | Mark.O => Mark.X

/-- Trial placement `board[i] = m` (JS mutates in place; modelled as an
updated copy). -/
def place (board : Board) (i : Nat) (m : Mark) : Board :=
  board.set i (some m)

/-- The undo `board[i] = null` of a trial placement. -/
def unplace (board : Board) (i : Nat) : Board :=
  board.set i none

/-- Number of empty cells of a board (the termination measure of the
minimax recursion: every trial placement removes one empty cell). -/
def countEmpty (board : Board) : Nat :=
  board.countP fun c => c.isNone

/-- The indices `0 ≤ i < board.length` with `!board[i]`, in ascending
order: exactly the cells the JS `for` loops of `minimax` / `findBestMove`
recurse on. -/
def emptyIdx (board : Board) : List Nat :=
  (List.range board.length).filter fun i => decide (board.get? i = some none)

/-- Embeds `getCell` of `checkGenericWinner` (part_000 lines 98-103, part_002
lines 65-68): row/column bounds check, then a row-major read.  part_000
additionally guards `idx < board.length`, which `List.get?` subsumes. -/
def getCell (board : Board) (rows cols : Nat) (r c : Int) : Cell :=
  if r < 0 ∨ (rows : Int) ≤ r ∨ c < 0 ∨ (cols : Int) ≤ c then none
  else (board.get? (r * cols + c).toNat).join

/-- The inner counting loop of `checkGenericWinner`: how many consecutive
offsets `1..n` from `(r, c)` in direction `(dr, dc)` hold `m`, stopping at
the first mismatch (the loop's `break`). -/
def consec (board : Board) (rows cols : Nat) (m : Mark) (dr dc : Int) :
    Int → Int → Nat → Nat
  | _, _, 0 => 0
  | r, c, n + 1 =>
    if getCell board rows cols (r + dr) (c + dc) = some m then
      1 + consec board rows cols m dr dc (r + dr) (c + dc) n
    else 0

/-- One direction check of `checkGenericWinner`: `count === K` where
`count = 1 + ` the consecutive matches at offsets `1..K-1`. -/
def dirCheck (board : Board) (rows cols : Nat) (m : Mark) (r c dr dc : Int) :
    Bool :=
  decide (1 + consec board rows cols m dr dc r c (Nat.min rows cols - 1)
    = Nat.min rows cols)

/-- The body of `checkGenericWinner`'s double loop at one cell `(r, c)`:
skip an empty cell, otherwise test the four directions in source order
(horizontal, vertical, down-right, up-right), returning the cell's symbol
at the first direction that reaches `K`. -/
def cellCheck (board : Board) (rows cols : Nat) (r c : Nat) : Option Mark :=
  match getCell board rows cols r c with
  | none => none
  | some m =>
    if dirCheck board rows cols m r c 0 1 then some m
    else if dirCheck board rows cols m r c 1 0 then some m
    else if dirCheck board rows cols m r c 1 1 then some m
    else if dirCheck board rows cols m r c (-1) 1 then some m
    else none

/-- Embeds `checkGenericWinner` of `src/unnamed/part_002` (lines 62-113): the
full row-major scan, with no guard relating `board.length` to
`rows * cols`. -/
def checkGenericWinnerV2 (board : Board) (rows cols : Nat) : Option Mark :=
  (List.range rows).findSome? fun r =>
    (List.range cols).findSome? fun c =>
      cellCheck board rows cols r c

/-- Embeds `checkGenericWinner` of `src/unnamed/part_000` (lines 89-149): bails
out with `null` when `board.length !== rows * cols`, otherwise runs the
same scan as the part_002 variant. -/
def checkGenericWinner (board : Board) (rows cols : Nat) : Option Mark :=
  if board.length ≠ rows * cols then none
  else checkGenericWinnerV2 board rows cols

/-- The eight winning lines of `checkWinner` (App.js lines 16-20), in
source order. -/
def appLines : List (Nat × Nat × Nat) :=
  [(0, 1, 2), (3, 4, 5), (6, 7, 8),
   (0, 3, 6), (1, 4, 7), (2, 5, 8),
   (0, 4, 8), (2, 4, 6)]

/-- One line test `board[a] && board[a] === board[b] && board[a] === board[c]`
of `checkWinner`. -/
def lineWin (board : Board) (t : Nat × Nat × Nat) : Option Mark :=
  match (board.get? t.1).join with
  | none => none
  | some m =>
    if (board.get? t.2.1).join = some m ∧ (board.get? t.2.2).join = some m
    then some m
    else none

/-- Embeds `checkWinner` of App.js (lines 14-27): first line whose three cells
hold the same mark, in the order of `appLines`. -/
def checkWinner (board : Board) : Option Mark :=
  appLines.findSome? fun t => lineWin board t

/-- Embeds `calculateWinner` of App.js (lines 139-150) and part_001 (lines
108-122): the regex
`^(?:(?:...){0,2}([OX])\1\1|.{0,2}([OX])..\2..\2|([OX])...\3...\3|..([OX]).\4.\4)`
run on the board string (empty cells printed as "-").  The alternatives
are tried left to right, and inside an alternative the greedy `{0,2}`
tries the largest offset first, so the lines are probed in the order:
rows starting at 6, 3, 0; columns starting at 2, 1, 0; the down-right
diagonal; the up-right diagonal.  A line matches exactly when its three
characters are an identical mark ("-" cannot match `[OX]`), i.e. exactly
when `lineWin` returns that mark. -/
def calculateWinner (board : Board) : Option Mark :=
  (lineWin board (6, 7, 8)).orElse fun _ =>
  (lineWin board (3, 4, 5)).orElse fun _ =>
  (lineWin board (0, 1, 2)).orElse fun _ =>
  (lineWin board (2, 5, 8)).orElse fun _ =>
  (lineWin board (1, 4, 7)).orElse fun _ =>
  (lineWin board (0, 3, 6)).orElse fun _ =>
  (lineWin board (0, 4, 8)).orElse fun _ =>
  lineWin board (2, 4, 6)

/-- JS `-Infinity`, the initial accumulator of the maximizing fold.  Any
sentinel strictly below every reachable score models it exactly: all
minimax scores lie in `[-10, 10]` (theorem `mmEngine_le` / `mmEngine_ge`),
and `Math.max(s, -Infinity) = s = max s negInf` for such scores. -/
def negInf : Int := -1000000

/-- JS `Infinity`, the initial accumulator of the minimizing fold. -/
def posInf : Int := 1000000

/-- The shared shape of the two JS `minimax` functions (App.js lines
38-78 and part_000 lines 152-181), parametrised by the winner check `w`
they call.  `fuel` is a structural-recursion bound: every recursive call
is on a board with one fewer empty cell, so any `fuel > countEmpty board`
is enough and the `fuel = 0` branch is unreachable from the wrappers
(theorem `mmEngine_fuel_irrel` / `minimax_eq` / `minimaxApp_eq`).

Body, exactly as in the source: winner "X" → 10, winner "O" → -10, full
board → 0, else fold max (resp. min) over every empty cell of the score
after placing "X" (resp. "O") there and recursing with `isMax` negated. -/
def mmEngine (w : Board → Option Mark) : Nat → Board → Nat → Bool → Int
  | 0, _, _, _ => 0
  | fuel + 1, board, depth, isMax =>
    match w board with
    | some Mark.X => 10
    | some Mark.O => -10
    | none =>
      if board.all Option.isSome then 0
      else if isMax then
        ((emptyIdx board).map fun i =>
          mmEngine w fuel (place board i Mark.X) (depth + 1) false).foldl
          max negInf
      else
        ((emptyIdx board).map fun i =>
          mmEngine w fuel (place board i Mark.O) (depth + 1) true).foldl
          min posInf

/-- Embeds `minimax` of part_000 (lines 152-181): the engine over the defensive
`checkGenericWinner` for an NxM board. -/
def minimax (board : Board) (rows cols : Nat) (depth : Nat) (isMax : Bool) :
    Int :=
  mmEngine (fun b => checkGenericWinner b rows cols)
    (countEmpty board + 1) board depth isMax

/-- Embeds `minimax` of App.js (lines 38-78): the engine over `checkWinner`. -/
def minimaxApp (board : Board) (depth : Nat) (isMax : Bool) : Int :=
  mmEngine checkWinner (countEmpty board + 1) board depth isMax

/-- The update test of `findBestMove`: JS `score > bestVal` for "X",
`score < bestVal` for "O".  `none` models the initial `-Infinity`
(resp. `Infinity`), which every score strictly beats. -/
def betterThan (p : Mark) (score : Int) (bestVal : Option Int) : Bool :=
  match bestVal with
  | none => true
  | some v => if p = Mark.X then decide (v < score) else decide (score < v)

/-- The selection loop shared by both `findBestMove` functions (App.js
lines 92-116, part_000 lines 187-211): walk the indices in ascending
order, skip occupied cells, and replace `(bestVal, bestMove)` exactly
when the cell's score is strictly better. -/
def fbmLoop (board : Board) (p : Mark) (score : Nat → Int) :
    List Nat → Option Int × Option Nat → Option Int × Option Nat
  | [], st => st
  | i :: rest, st =>
    if board.get? i = some none then
      if betterThan p (score i) st.1 then
        fbmLoop board p score rest (some (score i), some i)
      else
        fbmLoop board p score rest st
    else
      fbmLoop board p score rest st

/-- The score `findBestMove` of part_000 computes for a candidate cell
`i`: place the mover's mark at `i` and call `minimax` with
`isMaximizing = (currentPlayer === "X")` (lines 189-196).  Note the
source passes the mover's own side, not the opponent's. -/
def fbmScore (board : Board) (rows cols : Nat) (p : Mark) (i : Nat) : Int :=
  minimax (place board i p) rows cols 0 (decide (p = Mark.X))

/-- Embeds `findBestMove` of part_000 (lines 183-213). -/
def findBestMove (board : Board) (rows cols : Nat) (p : Mark) : Option Nat :=
  (fbmLoop board p (fbmScore board rows cols p)
    (List.range board.length) (none, none)).2

/-- The score `findBestMove` of App.js computes for a candidate cell
(lines 94-99), same shape as `fbmScore`. -/
def fbmScoreApp (board : Board) (p : Mark) (i : Nat) : Int :=
  minimaxApp (place board i p) 0 (decide (p = Mark.X))

/-- Embeds `findBestMove` of App.js (lines 88-118). -/
def findBestMoveApp (board : Board) (p : Mark) : Option Nat :=
  (fbmLoop board p (fbmScoreApp board p)
    (List.range board.length) (none, none)).2

/-- The empty 3x3 board. -/
def empty9 : Board := List.replicate 9 none

/-- The 3x3 board `X . . / X . . / . . .` (first mark at indices 0 and 3). -/
def boardA03 : Board :=
  [some Mark.X, none, none, some Mark.X, none, none, none, none, none]

/-- A 3x3 board holding complete lines of both marks at once (top row X,
middle row O) — unreachable in play, but inside the claims' quantifiers. -/
def doubleWin3 : Board :=
  [some Mark.X, some Mark.X, some Mark.X,
   some Mark.O, some Mark.O, some Mark.O, none, none, none]

/-- The selection loop with the emptiness test already performed:
`fbmLoop` over an index list equals `fbmGo` over the empty indices of
that list (theorem `fbmLoop_eq_go`).  Proof-side view of the same loop. -/
def fbmGo (p : Mark) (score : Nat → Int) :
    List Nat → Option Int × Option Nat → Option Int × Option Nat
  | [], st => st
  | i :: rest, st =>
    if betterThan p (score i) st.1 then
      fbmGo p score rest (some (score i), some i)
    else
      fbmGo p score rest st

/-- A straight `K`-run of `m` from `(r, c)` in direction `(dr, dc)`:
all `K = min rows cols` cells are in bounds and hold `m`. -/
def IsRunAt (board : Board) (rows cols : Nat) (m : Mark)
    (r c dr dc : Int) : Prop :=
  ∀ i : Nat, i < Nat.min rows cols →
    getCell board rows cols (r + i * dr) (c + i * dc) = some m

/-- The board contains a straight `K`-run of `m` in one of the four scan
directions — horizontal, vertical, down-right diagonal, up-right diagonal
(the winning condition the claims quantify over). -/
def HasRun (board : Board) (rows cols : Nat) (m : Mark) : Prop :=
  ∃ r : Nat, r < rows ∧ ∃ c : Nat, c < cols ∧
    (IsRunAt board rows cols m r c 0 1 ∨
     IsRunAt board rows cols m r c 1 0 ∨
     IsRunAt board rows cols m r c 1 1 ∨
     IsRunAt board rows cols m r c (-1) 1)

instance (board : Board) (rows cols : Nat) (m : Mark) (r c dr dc : Int) :
    Decidable (IsRunAt board rows cols m r c dr dc) := by
  unfold IsRunAt
  infer_instance

instance (board : Board) (rows cols : Nat) (m : Mark) :
    Decidable (HasRun board rows cols m) :=
  decidable_of_iff
    (∃ r ∈ List.range rows, ∃ c ∈ List.range cols,
      (IsRunAt board rows cols m r c 0 1 ∨
       IsRunAt board rows cols m r c 1 0 ∨
       IsRunAt board rows cols m r c 1 1 ∨
       IsRunAt board rows cols m r c (-1) 1))
    (by unfold HasRun; simp [List.mem_range])

/-- A complete line of `m` among the eight 3x3 lines. -/
def hasLine (board : Board) (m : Mark) : Prop :=
  ∃ t ∈ appLines, lineWin board t = some m

instance (board : Board) (m : Mark) : Decidable (hasLine board m) := by
  unfold hasLine
  infer_instance

/-- Game outcome. -/
inductive Outcome where
  | inProgress : Outcome
  | win : Mark → Outcome
  | draw : Outcome
deriving DecidableEq

/-- Outcome classification as realized by the status logic of part_000
(lines 230-237) over `checkGenericWinner`, matching the leaf evaluation
of `minimax` (lines 152-156): a winner wins, else a full board is a draw,
else the game is in progress. -/
def outcome (board : Board) (rows cols : Nat) : Outcome :=
  match checkGenericWinner board rows cols with
  | some m => Outcome.win m
  | none =>
    if board.all Option.isSome then Outcome.draw else Outcome.inProgress

/-! ### Basic lemmas about boards, empty cells and folds -/

theorem mem_emptyIdx {board : Board} {i : Nat} :
    i ∈ emptyIdx board ↔ board.get? i = some none := by
  unfold emptyIdx
  simp only [List.mem_filter, List.mem_range, decide_eq_true_eq]
  constructor
  · exact fun h => h.2
  · intro h
    refine ⟨?_, h⟩
    by_contra hle
    rw [List.get?_eq_none.mpr (Nat.le_of_not_lt hle)] at h
    exact Option.noConfusion h

theorem countEmpty_place_lt (board : Board) (i : Nat) (m : Mark)
    (h : board.get? i = some none) :
    countEmpty (place board i m) < countEmpty board := by
  induction board generalizing i with
  | nil => simp at h
  | cons c t ih =>
    cases i with
    | zero =>
      simp only [List.get?] at h
      cases h
      simp [place, countEmpty, List.set, List.countP_cons]
    | succ j =>
      simp only [List.get?] at h
      have h2 := ih j h
      simp only [place, countEmpty, List.set, List.countP_cons] at h2 ⊢
      omega

theorem emptyIdx_eq_nil_iff (board : Board) :
    emptyIdx board = [] ↔ board.all Option.isSome = true := by
  rw [List.eq_nil_iff_forall_not_mem, List.all_eq_true]
  constructor
  · intro h c hc
    obtain ⟨n, hn⟩ := List.mem_iff_get?.mp hc
    cases c with
    | some m => rfl
    | none => exact absurd (mem_emptyIdx.mpr hn) (h n)
  · intro h i hi
    have h2 := mem_emptyIdx.mp hi
    have h3 : (none : Cell) ∈ board := List.get?_mem h2
    simpa using h _ h3

theorem emptyIdx_pairwise (board : Board) :
    (emptyIdx board).Pairwise (· < ·) :=
  List.Pairwise.filter _ (List.pairwise_lt_range board.length)

theorem le_foldl_max (l : List Int) : ∀ a : Int, a ≤ l.foldl max a := by
  induction l with
  | nil => intro a; exact le_refl a
  | cons x t ih =>
    intro a
    rw [List.foldl_cons]
    exact le_trans (le_max_left a x) (ih (max a x))

theorem mem_le_foldl_max (l : List Int) :
    ∀ (a x : Int), x ∈ l → x ≤ l.foldl max a := by
  induction l with
  | nil => intro a x hx; simp at hx
  | cons y t ih =>
    intro a x hx
    rw [List.foldl_cons]
    rcases List.mem_cons.mp hx with rfl | h
    · exact le_trans (le_max_right a x) (le_foldl_max t (max a x))
    · exact ih (max a y) x h

theorem foldl_max_le (l : List Int) :
    ∀ (a B : Int), a ≤ B → (∀ x ∈ l, x ≤ B) → l.foldl max a ≤ B := by
  induction l with
  | nil => intro a B ha _; simpa using ha
  | cons y t ih =>
    intro a B ha hall
    rw [List.foldl_cons]
    exact ih (max a y) B (max_le ha (hall y (List.mem_cons_self y t)))
      fun x hx => hall x (List.mem_cons_of_mem y hx)

theorem foldl_min_le (l : List Int) : ∀ a : Int, l.foldl min a ≤ a := by
  induction l with
  | nil => intro a; exact le_refl a
  | cons x t ih =>
    intro a
    rw [List.foldl_cons]
    exact le_trans (ih (min a x)) (min_le_left a x)

theorem foldl_min_le_mem (l : List Int) :
    ∀ (a x : Int), x ∈ l → l.foldl min a ≤ x := by
  induction l with
  | nil => intro a x hx; simp at hx
  | cons y t ih =>
    intro a x hx
    rw [List.foldl_cons]
    rcases List.mem_cons.mp hx with rfl | h
    · exact le_trans (foldl_min_le t (min a x)) (min_le_right a x)
    · exact ih (min a y) x h

theorem le_foldl_min (l : List Int) :
    ∀ (a B : Int), B ≤ a → (∀ x ∈ l, B ≤ x) → B ≤ l.foldl min a := by
  induction l with
  | nil => intro a B ha _; simpa using ha
  | cons y t ih =>
    intro a B ha hall
    rw [List.foldl_cons]
    exact ih (min a y) B (le_min ha (hall y (List.mem_cons_self y t)))
      fun x hx => hall x (List.mem_cons_of_mem y hx)

/-! ### The minimax engine: score range, fuel irrelevance, recurrence -/

theorem mmEngine_range (w : Board → Option Mark) :
    ∀ (fuel : Nat) (board : Board) (depth : Nat) (isMax : Bool),
      -10 ≤ mmEngine w fuel board depth isMax ∧
        mmEngine w fuel board depth isMax ≤ 10 := by
  intro fuel
  induction fuel with
  | zero => intro board depth isMax; simp [mmEngine]
  | succ f ih =>
    intro board depth isMax
    simp only [mmEngine]
    cases hw : w board with
    | some m => cases m <;> norm_num
    | none =>
      by_cases hfull : board.all Option.isSome = true
      · simp [hfull]
      · rw [if_neg hfull]
        have hne : emptyIdx board ≠ [] := by
          rw [Ne, emptyIdx_eq_nil_iff]
          exact fun h => hfull h
        cases he : emptyIdx board with
        | nil => exact absurd he hne
        | cons j t =>
          cases isMax with
          | true =>
            rw [if_pos rfl]
            constructor
            · exact le_trans (ih (place board j Mark.X) (depth + 1) false).1
                (mem_le_foldl_max _ _ _
                  (List.mem_map_of_mem _ (List.mem_cons_self j t)))
            · refine foldl_max_le _ _ _ (by norm_num [negInf]) ?_
              intro x hx
              obtain ⟨i, _, rfl⟩ := List.mem_map.mp hx
              exact (ih (place board i Mark.X) (depth + 1) false).2
          | false =>
            rw [if_neg Bool.false_ne_true]
            constructor
            · refine le_foldl_min _ _ _ (by norm_num [posInf]) ?_
              intro x hx
              obtain ⟨i, _, rfl⟩ := List.mem_map.mp hx
              exact (ih (place board i Mark.O) (depth + 1) true).1
            · exact le_trans
                (foldl_min_le_mem _ _ _
                  (List.mem_map_of_mem _ (List.mem_cons_self j t)))
                (ih (place board j Mark.O) (depth + 1) true).2

theorem mmEngine_fuel_irrel (w : Board → Option Mark) :
    ∀ (f : Nat) (board : Board) (depth : Nat) (isMax : Bool) (g : Nat),
      countEmpty board < f → countEmpty board < g →
      mmEngine w f board depth isMax = mmEngine w g board depth isMax := by
  intro f
  induction f with
  | zero => intro board depth isMax g hf; omega
  | succ f2 ih =>
    intro board depth isMax g hf hg
    cases g with
    | zero => omega
    | succ g2 =>
      simp only [mmEngine]
      cases hw : w board with
      | some m => cases m <;> rfl
      | none =>
        by_cases hfull : board.all Option.isSome = true
        · simp [hfull]
        · rw [if_neg hfull, if_neg hfull]
          cases isMax with
          | true =>
            rw [if_pos rfl, if_pos rfl]
            dsimp only
            congr 1
            refine List.map_congr_left ?_
            intro i hi
            have hlt := countEmpty_place_lt board i Mark.X (mem_emptyIdx.mp hi)
            exact ih _ _ _ g2 (by omega) (by omega)
          | false =>
            rw [if_neg Bool.false_ne_true, if_neg Bool.false_ne_true]
            dsimp only
            congr 1
            refine List.map_congr_left ?_
            intro i hi
            have hlt := countEmpty_place_lt board i Mark.O (mem_emptyIdx.mp hi)
            exact ih _ _ _ g2 (by omega) (by omega)

theorem mmEngine_unfold (w : Board → Option Mark) (board : Board)
    (depth : Nat) (isMax : Bool) :
    mmEngine w (countEmpty board + 1) board depth isMax =
      match w board with
      | some Mark.X => 10
      | some Mark.O => -10
      | none =>
        if board.all Option.isSome then 0
        else if isMax then
          ((emptyIdx board).map fun i =>
            mmEngine w (countEmpty (place board i Mark.X) + 1)
              (place board i Mark.X) (depth + 1) false).foldl max negInf
        else
          ((emptyIdx board).map fun i =>
            mmEngine w (countEmpty (place board i Mark.O) + 1)
              (place board i Mark.O) (depth + 1) true).foldl min posInf := by
  conv_lhs => rw [mmEngine]
  cases hw : w board with
  | some m => cases m <;> rfl
  | none =>
    by_cases hfull : board.all Option.isSome = true
    · simp [hfull]
    · rw [if_neg hfull, if_neg hfull]
      cases isMax with
      | true =>
        rw [if_pos rfl, if_pos rfl]
        dsimp only
        congr 1
        refine List.map_congr_left ?_
        intro i hi
        have hlt := countEmpty_place_lt board i Mark.X (mem_emptyIdx.mp hi)
        exact mmEngine_fuel_irrel w _ _ _ _ _ (by omega) (by omega)
      | false =>
        rw [if_neg Bool.false_ne_true, if_neg Bool.false_ne_true]
        dsimp only
        congr 1
        refine List.map_congr_left ?_
        intro i hi
        have hlt := countEmpty_place_lt board i Mark.O (mem_emptyIdx.mp hi)
        exact mmEngine_fuel_irrel w _ _ _ _ _ (by omega) (by omega)

/-- The recurrence satisfied by `minimax` (part_000): the fuel of the
embedding is invisible, and the function computes exactly the source's
recursion. -/
theorem minimax_eq (board : Board) (rows cols depth : Nat) (isMax : Bool) :
    minimax board rows cols depth isMax =
      match checkGenericWinner board rows cols with
      | some Mark.X => 10
      | some Mark.O => -10
      | none =>
        if board.all Option.isSome then 0
        else if isMax then
          ((emptyIdx board).map fun i =>
            minimax (place board i Mark.X) rows cols (depth + 1) false).foldl
            max negInf
        else
          ((emptyIdx board).map fun i =>
            minimax (place board i Mark.O) rows cols (depth + 1) true).foldl
            min posInf :=
  mmEngine_unfold (fun b => checkGenericWinner b rows cols) board depth isMax

/-- The recurrence satisfied by `minimaxApp` (App.js). -/
theorem minimaxApp_eq (board : Board) (depth : Nat) (isMax : Bool) :
    minimaxApp board depth isMax =
      match checkWinner board with
      | some Mark.X => 10
      | some Mark.O => -10
      | none =>
        if board.all Option.isSome then 0
        else if isMax then
          ((emptyIdx board).map fun i =>
            minimaxApp (place board i Mark.X) (depth + 1) false).foldl
            max negInf
        else
          ((emptyIdx board).map fun i =>
            minimaxApp (place board i Mark.O) (depth + 1) true).foldl
            min posInf :=
  mmEngine_unfold checkWinner board depth isMax

theorem minimax_range (board : Board) (rows cols depth : Nat) (isMax : Bool) :
    -10 ≤ minimax board rows cols depth isMax ∧
      minimax board rows cols depth isMax ≤ 10 :=
  mmEngine_range _ _ board depth isMax

theorem minimaxApp_range (board : Board) (depth : Nat) (isMax : Bool) :
    -10 ≤ minimaxApp board depth isMax ∧ minimaxApp board depth isMax ≤ 10 :=
  mmEngine_range _ _ board depth isMax

/-! ### The selection loop of findBestMove -/

theorem fbmLoop_eq_go (board : Board) (p : Mark) (score : Nat → Int) :
    ∀ (l : List Nat) (st : Option Int × Option Nat),
      fbmLoop board p score l st =
        fbmGo p score (l.filter fun i => decide (board.get? i = some none))
          st := by
  intro l
  induction l with
  | nil => intro st; rfl
  | cons i rest ih =>
    intro st
    rw [List.filter_cons]
    by_cases h : board.get? i = some none
    · rw [if_pos (by simpa using h)]
      simp only [fbmLoop, fbmGo]
      rw [if_pos h]
      by_cases hb : betterThan p (score i) st.1 = true
      · rw [if_pos hb, if_pos hb, ih]
      · rw [if_neg hb, if_neg hb, ih]
    · rw [if_neg (by simpa using h)]
      simp only [fbmLoop]
      rw [if_neg h, ih]

theorem fbmGoX (score : Nat → Int) :
    ∀ (l : List Nat) (v : Int) (b : Nat), score b = v →
      (b :: l).Pairwise (· < ·) →
      ∃ v2 b2, fbmGo Mark.X score l (some v, some b) = (some v2, some b2) ∧
        score b2 = v2 ∧ (b2 = b ∨ b2 ∈ l) ∧ v ≤ v2 ∧
        (∀ k ∈ l, score k ≤ v2) ∧ (v2 = v → b2 = b) ∧
        (∀ k ∈ l, score k = v2 → b2 ≤ k) := by
  intro l
  induction l with
  | nil =>
    intro v b hsb _
    exact ⟨v, b, rfl, hsb, Or.inl rfl, le_refl v, by simp, fun _ => rfl,
      by simp⟩
  | cons i rest ih =>
    intro v b hsb hp
    have hbi : b < i := (List.pairwise_cons.mp hp).1 i (List.mem_cons_self i rest)
    simp only [fbmGo]
    rw [show betterThan Mark.X (score i) (some v) = decide (v < score i)
      from rfl]
    by_cases hlt : v < score i
    · rw [if_pos (decide_eq_true hlt)]
      obtain ⟨v2, b2, heq, hs2, hmem, hle2, hall, hvb, hfirst⟩ :=
        ih (score i) i rfl (List.Pairwise.of_cons hp)
      refine ⟨v2, b2, heq, hs2, ?_, ?_, ?_, ?_, ?_⟩
      · rcases hmem with rfl | h
        · exact Or.inr (List.mem_cons_self b2 rest)
        · exact Or.inr (List.mem_cons_of_mem i h)
      · exact le_trans (le_of_lt hlt) hle2
      · intro k hk
        rcases List.mem_cons.mp hk with rfl | h
        · exact hle2
        · exact hall k h
      · intro hv2
        exfalso
        omega
      · intro k hk hscore
        rcases List.mem_cons.mp hk with rfl | h
        · exact le_of_eq (hvb hscore.symm)
        · exact hfirst k h hscore
    · rw [if_neg (by simpa using hlt)]
      have hps : (b :: rest).Pairwise (· < ·) :=
        List.Pairwise.sublist
          (List.cons_sublist_cons.mpr (List.sublist_cons_self i rest)) hp
      obtain ⟨v2, b2, heq, hs2, hmem, hle2, hall, hvb, hfirst⟩ :=
        ih v b hsb hps
      refine ⟨v2, b2, heq, hs2, ?_, hle2, ?_, hvb, ?_⟩
      · rcases hmem with rfl | h
        · exact Or.inl rfl
        · exact Or.inr (List.mem_cons_of_mem i h)
      · intro k hk
        rcases List.mem_cons.mp hk with rfl | h
        · exact le_trans (le_of_not_lt hlt) hle2
        · exact hall k h
      · intro k hk hscore
        rcases List.mem_cons.mp hk with rfl | h
        · have h1 : score k ≤ v := le_of_not_lt hlt
          have h2 : v2 = v := by omega
          have h3 : b2 = b := hvb h2
          omega
        · exact hfirst k h hscore

theorem fbmGoO (score : Nat → Int) :
    ∀ (l : List Nat) (v : Int) (b : Nat), score b = v →
      (b :: l).Pairwise (· < ·) →
      ∃ v2 b2, fbmGo Mark.O score l (some v, some b) = (some v2, some b2) ∧
        score b2 = v2 ∧ (b2 = b ∨ b2 ∈ l) ∧ v2 ≤ v ∧
        (∀ k ∈ l, v2 ≤ score k) ∧ (v2 = v → b2 = b) ∧
        (∀ k ∈ l, score k = v2 → b2 ≤ k) := by
  intro l
  induction l with
  | nil =>
    intro v b hsb _
    exact ⟨v, b, rfl, hsb, Or.inl rfl, le_refl v, by simp, fun _ => rfl,
      by simp⟩
  | cons i rest ih =>
    intro v b hsb hp
    have hbi : b < i := (List.pairwise_cons.mp hp).1 i (List.mem_cons_self i rest)
    simp only [fbmGo]
    rw [show betterThan Mark.O (score i) (some v) = decide (score i < v)
      from rfl]
    by_cases hlt : score i < v
    · rw [if_pos (decide_eq_true hlt)]
      obtain ⟨v2, b2, heq, hs2, hmem, hle2, hall, hvb, hfirst⟩ :=
        ih (score i) i rfl (List.Pairwise.of_cons hp)
      refine ⟨v2, b2, heq, hs2, ?_, ?_, ?_, ?_, ?_⟩
      · rcases hmem with rfl | h
        · exact Or.inr (List.mem_cons_self b2 rest)
        · exact Or.inr (List.mem_cons_of_mem i h)
      · exact le_trans hle2 (le_of_lt hlt)
      · intro k hk
        rcases List.mem_cons.mp hk with rfl | h
        · exact hle2
        · exact hall k h
      · intro hv2
        exfalso
        omega
      · intro k hk hscore
        rcases List.mem_cons.mp hk with rfl | h
        · exact le_of_eq (hvb hscore.symm)
        · exact hfirst k h hscore
    · rw [if_neg (by simpa using hlt)]
      have hps : (b :: rest).Pairwise (· < ·) :=
        List.Pairwise.sublist
          (List.cons_sublist_cons.mpr (List.sublist_cons_self i rest)) hp
      obtain ⟨v2, b2, heq, hs2, hmem, hle2, hall, hvb, hfirst⟩ :=
        ih v b hsb hps
      refine ⟨v2, b2, heq, hs2, ?_, hle2, ?_, hvb, ?_⟩
      · rcases hmem with rfl | h
        · exact Or.inl rfl
        · exact Or.inr (List.mem_cons_of_mem i h)
      · intro k hk
        rcases List.mem_cons.mp hk with rfl | h
        · exact le_trans hle2 (le_of_not_lt hlt)
        · exact hall k h
      · intro k hk hscore
        rcases List.mem_cons.mp hk with rfl | h
        · have h1 : v ≤ score k := le_of_not_lt hlt
          have h2 : v2 = v := by omega
          have h3 : b2 = b := hvb h2
          omega
        · exact hfirst k h hscore

theorem fbmGo_char (p : Mark) (score : Nat → Int) (j : Nat) (t : List Nat)
    (hp : (j :: t).Pairwise (· < ·)) :
    ∃ v2 b2, fbmGo p score (j :: t) (none, none) = (some v2, some b2) ∧
      score b2 = v2 ∧ b2 ∈ j :: t ∧
      (∀ k ∈ j :: t,
        (p = Mark.X → score k ≤ v2) ∧ (p = Mark.O → v2 ≤ score k)) ∧
      (∀ k ∈ j :: t, score k = v2 → b2 ≤ k) := by
  simp only [fbmGo]
  rw [if_pos (show betterThan p (score j) none = true from rfl)]
  cases p with
  | X =>
    obtain ⟨v2, b2, heq, hs2, hmem, hle2, hall, hvb, hfirst⟩ :=
      fbmGoX score t (score j) j rfl hp
    refine ⟨v2, b2, heq, hs2, ?_, ?_, ?_⟩
    · rcases hmem with rfl | h
      · exact List.mem_cons_self b2 t
      · exact List.mem_cons_of_mem j h
    · intro k hk
      refine ⟨fun _ => ?_, fun hO => Mark.noConfusion hO⟩
      rcases List.mem_cons.mp hk with rfl | h
      · exact hle2
      · exact hall k h
    · intro k hk hscore
      rcases List.mem_cons.mp hk with rfl | h
      · exact le_of_eq (hvb hscore.symm)
      · exact hfirst k h hscore
  | O =>
    obtain ⟨v2, b2, heq, hs2, hmem, hle2, hall, hvb, hfirst⟩ :=
      fbmGoO score t (score j) j rfl hp
    refine ⟨v2, b2, heq, hs2, ?_, ?_, ?_⟩
    · rcases hmem with rfl | h
      · exact List.mem_cons_self b2 t
      · exact List.mem_cons_of_mem j h
    · intro k hk
      refine ⟨fun hX => Mark.noConfusion hX, fun _ => ?_⟩
      rcases List.mem_cons.mp hk with rfl | h
      · exact hle2
      · exact hall k h
    · intro k hk hscore
      rcases List.mem_cons.mp hk with rfl | h
      · exact le_of_eq (hvb hscore.symm)
      · exact hfirst k h hscore

theorem findBestMove_go (board : Board) (rows cols : Nat) (p : Mark) :
    findBestMove board rows cols p =
      (fbmGo p (fbmScore board rows cols p) (emptyIdx board)
        (none, none)).2 := by
  unfold findBestMove
  rw [fbmLoop_eq_go]
  rfl

theorem findBestMoveApp_go (board : Board) (p : Mark) :
    findBestMoveApp board p =
      (fbmGo p (fbmScoreApp board p) (emptyIdx board) (none, none)).2 := by
  unfold findBestMoveApp
  rw [fbmLoop_eq_go]
  rfl

theorem findBestMove_spec (board : Board) (rows cols : Nat) (p : Mark)
    (hne : emptyIdx board ≠ []) :
    ∃ b2, findBestMove board rows cols p = some b2 ∧ b2 ∈ emptyIdx board ∧
      (∀ k ∈ emptyIdx board,
        (p = Mark.X →
          fbmScore board rows cols p k ≤ fbmScore board rows cols p b2) ∧
        (p = Mark.O →
          fbmScore board rows cols p b2 ≤ fbmScore board rows cols p k)) ∧
      (∀ k ∈ emptyIdx board,
        fbmScore board rows cols p k = fbmScore board rows cols p b2 →
          b2 ≤ k) := by
  cases he : emptyIdx board with
  | nil => exact absurd he hne
  | cons j t =>
    have hp := emptyIdx_pairwise board
    rw [he] at hp
    obtain ⟨v2, b2, heq, hs2, hmem, hbound, hfirst⟩ :=
      fbmGo_char p (fbmScore board rows cols p) j t hp
    refine ⟨b2, ?_, ?_, ?_, ?_⟩
    · rw [findBestMove_go, he, heq]
    · exact hmem
    · intro k hk
      refine ⟨fun hX => ?_, fun hO => ?_⟩
      · rw [hs2]; exact (hbound k hk).1 hX
      · rw [hs2]; exact (hbound k hk).2 hO
    · intro k hk hks
      exact hfirst k hk (by rw [← hs2]; exact hks)

theorem findBestMove_eq_none_iff (board : Board) (rows cols : Nat)
    (p : Mark) :
    findBestMove board rows cols p = none ↔ emptyIdx board = [] := by
  constructor
  · intro h
    cases he : emptyIdx board with
    | nil => rfl
    | cons j t =>
      obtain ⟨b2, hb2, _⟩ := findBestMove_spec board rows cols p
        (by rw [he]; exact fun hh => List.noConfusion hh)
      rw [h] at hb2
      exact Option.noConfusion hb2
  · intro he
    rw [findBestMove_go, he]
    rfl

/-! ### The generic winner scan: soundness and completeness -/

theorem consec_le (board : Board) (rows cols : Nat) (m : Mark)
    (dr dc : Int) :
    ∀ (n : Nat) (r c : Int), consec board rows cols m dr dc r c n ≤ n := by
  intro n
  induction n with
  | zero => intro r c; exact le_refl 0
  | succ k ih =>
    intro r c
    simp only [consec]
    split
    · have := ih (r + dr) (c + dc)
      omega
    · omega

theorem consec_eq_iff (board : Board) (rows cols : Nat) (m : Mark)
    (dr dc : Int) :
    ∀ (n : Nat) (r c : Int),
      consec board rows cols m dr dc r c n = n ↔
        ∀ i : Nat, i < n →
          getCell board rows cols (r + (i + 1) * dr) (c + (i + 1) * dc)
            = some m := by
  intro n
  induction n with
  | zero => intro r c; simp [consec]
  | succ k ih =>
    intro r c
    simp only [consec]
    by_cases h : getCell board rows cols (r + dr) (c + dc) = some m
    · rw [if_pos h]
      constructor
      · intro h1 i hi
        have h2 : consec board rows cols m dr dc (r + dr) (c + dc) k = k := by
          omega
        cases i with
        | zero => simpa using h
        | succ i2 =>
          have h3 := (ih (r + dr) (c + dc)).mp h2 i2 (by omega)
          convert h3 using 2 <;> push_cast <;> ring
      · intro hall
        have h2 : consec board rows cols m dr dc (r + dr) (c + dc) k = k := by
          rw [ih]
          intro i hi
          have h3 := hall (i + 1) (by omega)
          convert h3 using 2 <;> push_cast <;> ring
        omega
    · rw [if_neg h]
      constructor
      · intro h1
        omega
      · intro hall
        exfalso
        apply h
        have h0 := hall 0 (by omega)
        simpa using h0

theorem dirCheck_eq_true_iff (board : Board) (rows cols : Nat) (m : Mark)
    (r c dr dc : Int) (hK : 0 < Nat.min rows cols) :
    dirCheck board rows cols m r c dr dc = true ↔
      ∀ i : Nat, i < Nat.min rows cols - 1 →
        getCell board rows cols (r + (i + 1) * dr) (c + (i + 1) * dc)
          = some m := by
  unfold dirCheck
  rw [decide_eq_true_eq]
  have hc := consec_le board rows cols m dr dc (Nat.min rows cols - 1) r c
  constructor
  · intro h1
    exact (consec_eq_iff board rows cols m dr dc
      (Nat.min rows cols - 1) r c).mp (by omega)
  · intro h2
    have h3 := (consec_eq_iff board rows cols m dr dc
      (Nat.min rows cols - 1) r c).mpr h2
    omega

theorem isRunAt_iff (board : Board) (rows cols : Nat) (m : Mark)
    (r c dr dc : Int) (hK : 0 < Nat.min rows cols) :
    IsRunAt board rows cols m r c dr dc ↔
      (getCell board rows cols r c = some m ∧
        dirCheck board rows cols m r c dr dc = true) := by
  rw [dirCheck_eq_true_iff board rows cols m r c dr dc hK]
  unfold IsRunAt
  constructor
  · intro h
    refine ⟨?_, ?_⟩
    · have h0 := h 0 hK
      simpa using h0
    · intro i hi
      have h3 := h (i + 1) (by omega)
      convert h3 using 2
  · rintro ⟨h0, h1⟩ i hi
    cases i with
    | zero => simpa using h0
    | succ i2 =>
      have h3 := h1 i2 (by omega)
      convert h3 using 2

theorem cellCheck_eq_some_iff (board : Board) (rows cols : Nat) (r c : Nat)
    (m : Mark) (hr : r < rows) (hc : c < cols) :
    cellCheck board rows cols r c = some m ↔
      (IsRunAt board rows cols m r c 0 1 ∨
       IsRunAt board rows cols m r c 1 0 ∨
       IsRunAt board rows cols m r c 1 1 ∨
       IsRunAt board rows cols m r c (-1) 1) := by
  have hK : 0 < Nat.min rows cols := lt_min (by omega) (by omega)
  unfold cellCheck
  cases hg : getCell board rows cols r c with
  | none =>
    constructor
    · intro h
      exact Option.noConfusion h
    · intro h
      exfalso
      have h0 : getCell board rows cols (r : Int) (c : Int) = some m := by
        rcases h with h | h | h | h <;>
          exact ((isRunAt_iff board rows cols m r c _ _ hK).mp h).1
      rw [hg] at h0
      exact Option.noConfusion h0
  | some m0 =>
    constructor
    · intro h
      dsimp only at h
      split_ifs at h with h1 h2 h3 h4
      · cases h
        exact Or.inl ((isRunAt_iff board rows cols m r c 0 1 hK).mpr ⟨hg, h1⟩)
      · cases h
        exact Or.inr (Or.inl
          ((isRunAt_iff board rows cols m r c 1 0 hK).mpr ⟨hg, h2⟩))
      · cases h
        exact Or.inr (Or.inr (Or.inl
          ((isRunAt_iff board rows cols m r c 1 1 hK).mpr ⟨hg, h3⟩)))
      · cases h
        exact Or.inr (Or.inr (Or.inr
          ((isRunAt_iff board rows cols m r c (-1) 1 hK).mpr ⟨hg, h4⟩)))
    · intro h
      have hm : m0 = m := by
        have h0 : getCell board rows cols (r : Int) (c : Int) = some m := by
          rcases h with h | h | h | h <;>
            exact ((isRunAt_iff board rows cols m r c _ _ hK).mp h).1
        rw [hg] at h0
        exact (Option.some.injEq _ _ ▸ h0 : m0 = m)
      subst hm
      dsimp only
      by_cases ha : dirCheck board rows cols m0 r c 0 1 = true
      · rw [if_pos ha]
      · rw [if_neg ha]
        by_cases hb : dirCheck board rows cols m0 r c 1 0 = true
        · rw [if_pos hb]
        · rw [if_neg hb]
          by_cases hd : dirCheck board rows cols m0 r c 1 1 = true
          · rw [if_pos hd]
          · rw [if_neg hd]
            rw [if_pos ?_]
            rcases h with h | h | h | h
            · exact absurd ((isRunAt_iff board rows cols m0 r c 0 1 hK).mp
                h).2 ha
            · exact absurd ((isRunAt_iff board rows cols m0 r c 1 0 hK).mp
                h).2 hb
            · exact absurd ((isRunAt_iff board rows cols m0 r c 1 1 hK).mp
                h).2 hd
            · exact ((isRunAt_iff board rows cols m0 r c (-1) 1 hK).mp h).2

theorem scan_sound (board : Board) (rows cols : Nat) (m : Mark)
    (h : checkGenericWinnerV2 board rows cols = some m) :
    HasRun board rows cols m := by
  obtain ⟨r, hr, h2⟩ := List.exists_of_findSome?_eq_some h
  obtain ⟨c, hc, h3⟩ := List.exists_of_findSome?_eq_some h2
  have hrr := List.mem_range.mp hr
  have hcc := List.mem_range.mp hc
  exact ⟨r, hrr, c, hcc,
    (cellCheck_eq_some_iff board rows cols r c m hrr hcc).mp h3⟩

theorem scan_complete (board : Board) (rows cols : Nat) (m : Mark)
    (h : HasRun board rows cols m) :
    ∃ m2, checkGenericWinnerV2 board rows cols = some m2 := by
  obtain ⟨r, hr, c, hc, hrun⟩ := h
  have hcell : cellCheck board rows cols r c = some m :=
    (cellCheck_eq_some_iff board rows cols r c m hr hc).mpr hrun
  cases hv : checkGenericWinnerV2 board rows cols with
  | some m2 => exact ⟨m2, rfl⟩
  | none =>
    exfalso
    unfold checkGenericWinnerV2 at hv
    rw [List.findSome?_eq_none_iff] at hv
    have h4 := hv r (List.mem_range.mpr hr)
    rw [List.findSome?_eq_none_iff] at h4
    have h5 := h4 c (List.mem_range.mpr hc)
    rw [h5] at hcell
    exact Option.noConfusion hcell

theorem checkGenericWinner_eq_v2 (board : Board) (rows cols : Nat)
    (hlen : board.length = rows * cols) :
    checkGenericWinner board rows cols =
      checkGenericWinnerV2 board rows cols := by
  unfold checkGenericWinner
  rw [if_neg (not_not_intro hlen)]

/-! ### The two 3x3 detectors of App.js -/

theorem checkWinner_sound (board : Board) (m : Mark)
    (h : checkWinner board = some m) : hasLine board m := by
  obtain ⟨t, ht, h2⟩ := List.exists_of_findSome?_eq_some h
  exact ⟨t, ht, h2⟩

theorem checkWinner_complete (board : Board) (m : Mark)
    (h : hasLine board m) : checkWinner board ≠ none := by
  obtain ⟨t, ht, h2⟩ := h
  intro hn
  unfold checkWinner at hn
  rw [List.findSome?_eq_none_iff] at hn
  rw [hn t ht] at h2
  exact Option.noConfusion h2

theorem orElse_eq_some_or (a : Option Mark) (f : Unit → Option Mark)
    (m : Mark) (h : a.orElse f = some m) : a = some m ∨ f () = some m := by
  cases a with
  | none => exact Or.inr h
  | some x => exact Or.inl h

theorem orElse_eq_none_and (a : Option Mark) (f : Unit → Option Mark)
    (h : a.orElse f = none) : a = none ∧ f () = none := by
  cases a with
  | none => exact ⟨rfl, h⟩
  | some x => exact Option.noConfusion h

theorem calculateWinner_sound (board : Board) (m : Mark)
    (h : calculateWinner board = some m) : hasLine board m := by
  unfold calculateWinner at h
  rcases orElse_eq_some_or _ _ _ h with h | h
  · exact ⟨(6, 7, 8), by decide, h⟩
  rcases orElse_eq_some_or _ _ _ h with h | h
  · exact ⟨(3, 4, 5), by decide, h⟩
  rcases orElse_eq_some_or _ _ _ h with h | h
  · exact ⟨(0, 1, 2), by decide, h⟩
  rcases orElse_eq_some_or _ _ _ h with h | h
  · exact ⟨(2, 5, 8), by decide, h⟩
  rcases orElse_eq_some_or _ _ _ h with h | h
  · exact ⟨(1, 4, 7), by decide, h⟩
  rcases orElse_eq_some_or _ _ _ h with h | h
  · exact ⟨(0, 3, 6), by decide, h⟩
  rcases orElse_eq_some_or _ _ _ h with h | h
  · exact ⟨(0, 4, 8), by decide, h⟩
  · exact ⟨(2, 4, 6), by decide, h⟩

theorem calculateWinner_complete (board : Board) (m : Mark)
    (h : hasLine board m) : calculateWinner board ≠ none := by
  intro hn
  unfold calculateWinner at hn
  obtain ⟨h1, hn⟩ := orElse_eq_none_and _ _ hn
  obtain ⟨h2, hn⟩ := orElse_eq_none_and _ _ hn
  obtain ⟨h3, hn⟩ := orElse_eq_none_and _ _ hn
  obtain ⟨h4, hn⟩ := orElse_eq_none_and _ _ hn
  obtain ⟨h5, hn⟩ := orElse_eq_none_and _ _ hn
  obtain ⟨h6, hn⟩ := orElse_eq_none_and _ _ hn
  obtain ⟨h7, h8⟩ := orElse_eq_none_and _ _ hn
  obtain ⟨t, ht, hw⟩ := h
  simp only [appLines, List.mem_cons, List.not_mem_nil, or_false] at ht
  rcases ht with rfl | rfl | rfl | rfl | rfl | rfl | rfl | rfl
  · rw [h3] at hw; exact Option.noConfusion hw
  · rw [h2] at hw; exact Option.noConfusion hw
  · rw [h1] at hw; exact Option.noConfusion hw
  · rw [h6] at hw; exact Option.noConfusion hw
  · rw [h5] at hw; exact Option.noConfusion hw
  · rw [h4] at hw; exact Option.noConfusion hw
  · rw [h7] at hw; exact Option.noConfusion hw
  · rw [h8] at hw; exact Option.noConfusion hw

/-! ### Claim theorems -/

/-- Claim C1: for every board with at least one empty cell and every side to
move, `findBestMove` (part_000) returns an empty cell whose score — the
value the source computes for a candidate: place the mover's mark there
and call `minimax` with `isMaximizing = (p = X)` — is extremal (maximal
for X, minimal for O) among all empty cells, and every empty cell
achieving the extremal score is ≥ the returned index: the first extremal
cell in ascending index order wins ties. -/
theorem findBestMove_first_extremal (board : Board) (rows cols : Nat)
    (p : Mark) (hne : emptyIdx board ≠ []) :
    ∃ j, findBestMove board rows cols p = some j ∧ j ∈ emptyIdx board ∧
      (∀ k ∈ emptyIdx board,
        (p = Mark.X →
          fbmScore board rows cols p k ≤ fbmScore board rows cols p j) ∧
        (p = Mark.O →
          fbmScore board rows cols p j ≤ fbmScore board rows cols p k)) ∧
      (∀ k ∈ emptyIdx board,
        fbmScore board rows cols p k = fbmScore board rows cols p j →
          j ≤ k) :=
  findBestMove_spec board rows cols p hne

/-- Witness for C1 at the concrete 1x2 board `[_, _]` with X to move
(both empty cells score 10, and the first — index 0 — is returned). -/
theorem findBestMove_first_extremal_witness :
    ∃ j, findBestMove [none, none] 1 2 Mark.X = some j ∧
      j ∈ emptyIdx [none, none] ∧
      (∀ k ∈ emptyIdx [none, none],
        (Mark.X = Mark.X →
          fbmScore [none, none] 1 2 Mark.X k ≤
            fbmScore [none, none] 1 2 Mark.X j) ∧
        (Mark.X = Mark.O →
          fbmScore [none, none] 1 2 Mark.X j ≤
            fbmScore [none, none] 1 2 Mark.X k)) ∧
      (∀ k ∈ emptyIdx [none, none],
        fbmScore [none, none] 1 2 Mark.X k =
          fbmScore [none, none] 1 2 Mark.X j → j ≤ k) :=
  findBestMove_first_extremal [none, none] 1 2 Mark.X (by decide)

/-- Claim C5: `findBestMove` (part_000) returns NONE exactly when the board
has no empty cell, and any returned index points at an empty cell of the
input board. -/
theorem findBestMove_none_iff (board : Board) (rows cols : Nat) (p : Mark) :
    (findBestMove board rows cols p = none ↔
      board.all Option.isSome = true) ∧
    (∀ j, findBestMove board rows cols p = some j →
      board.get? j = some none) := by
  constructor
  · rw [findBestMove_eq_none_iff]
    exact emptyIdx_eq_nil_iff board
  · intro j hj
    cases he : emptyIdx board with
    | nil =>
      rw [(findBestMove_eq_none_iff board rows cols p).mpr he] at hj
      exact Option.noConfusion hj
    | cons a t =>
      obtain ⟨b2, hb2, hmem, _⟩ := findBestMove_spec board rows cols p
        (by rw [he]; exact fun hh => List.noConfusion hh)
      rw [hj] at hb2
      cases hb2
      exact mem_emptyIdx.mp hmem

/-- Witness for C5: a full 1x1 board gives NONE; the 1x1 empty board
gives an index pointing at an empty cell. -/
theorem findBestMove_none_iff_witness :
    ((findBestMove [some Mark.X] 1 1 Mark.O = none ↔
      ([some Mark.X] : Board).all Option.isSome = true) ∧
     (∀ j, findBestMove [some Mark.X] 1 1 Mark.O = some j →
       ([some Mark.X] : Board).get? j = some none)) ∧
    ((findBestMove [none] 1 1 Mark.X = none ↔
      ([none] : Board).all Option.isSome = true) ∧
     (∀ j, findBestMove [none] 1 1 Mark.X = some j →
       ([none] : Board).get? j = some none)) :=
  ⟨findBestMove_none_iff [some Mark.X] 1 1 Mark.O,
   findBestMove_none_iff [none] 1 1 Mark.X⟩

/-- Claim C2 counterexample: the part_002 `checkGenericWinner` does not fail
closed on a length mismatch: on the board `["X"]` with claimed dimensions
1x3 (board.length = 1 ≠ 3) it reports a win for X instead of no winner. -/
theorem checkGenericWinnerV2_fails_open :
    ([some Mark.X] : Board).length ≠ 1 * 3 ∧
    checkGenericWinnerV2 [some Mark.X] 1 3 = some Mark.X := by
  constructor
  · decide
  · decide

/-- Claim C2 (amended): the part_000 `checkGenericWinner` fails closed: if
the board's length differs from rows*cols, or rows < 1, or cols < 1, it
reports no winner (the part_002 variant, which lacks the length guard,
does not satisfy this — see the counterexample). -/
theorem checkGenericWinner_fails_closed (board : Board) (rows cols : Nat)
    (h : board.length ≠ rows * cols ∨ rows < 1 ∨ cols < 1) :
    checkGenericWinner board rows cols = none := by
  rcases h with h | h | h
  · unfold checkGenericWinner
    rw [if_pos h]
  · unfold checkGenericWinner
    by_cases hlen : board.length ≠ rows * cols
    · rw [if_pos hlen]
    · rw [if_neg hlen]
      unfold checkGenericWinnerV2
      have hr0 : rows = 0 := by omega
      subst hr0
      rfl
  · unfold checkGenericWinner
    by_cases hlen : board.length ≠ rows * cols
    · rw [if_pos hlen]
    · rw [if_neg hlen]
      unfold checkGenericWinnerV2
      have hc0 : cols = 0 := by omega
      subst hc0
      rw [List.findSome?_eq_none_iff]
      intro r _
      rfl

/-- Witness for C2 (amended): a length-1 board with claimed 2x2
dimensions yields no winner from the defensive variant. -/
theorem checkGenericWinner_fails_closed_witness :
    checkGenericWinner [some Mark.X] 2 2 = none :=
  checkGenericWinner_fails_closed [some Mark.X] 2 2 (Or.inl (by decide))

/-- Claim C3 counterexample: a board can contain a K-run of O while
`checkGenericWinner` returns WIN(X) (both marks have runs; the scan finds
X's first), so "detect returns WIN of that mark" fails as universally
stated. -/
theorem checkGenericWinner_double_run :
    HasRun doubleWin3 3 3 Mark.O ∧ (doubleWin3 : Board).length = 3 * 3 ∧
    checkGenericWinner doubleWin3 3 3 = some Mark.X ∧ Mark.X ≠ Mark.O := by
  refine ⟨by decide, by decide, by decide, by decide⟩

/-- Claim C3 (amended): for every board of length rows*cols containing a
straight K-run of `m` in one of the four directions and containing no
K-run of the other mark, `checkGenericWinner` returns WIN(m).  (The
degenerate rows = 1 or cols = 1 case, where K = 1 and a single placed
mark wins, is the witness below.) -/
theorem checkGenericWinner_of_hasRun (board : Board) (rows cols : Nat)
    (m : Mark) (hlen : board.length = rows * cols)
    (hrun : HasRun board rows cols m)
    (hno : ¬ HasRun board rows cols (flipMark m)) :
    checkGenericWinner board rows cols = some m := by
  rw [checkGenericWinner_eq_v2 board rows cols hlen]
  obtain ⟨m2, hm2⟩ := scan_complete board rows cols m hrun
  have hr2 := scan_sound board rows cols m2 hm2
  cases m <;> cases m2
  · exact hm2
  · exact absurd hr2 hno
  · exact absurd hr2 hno
  · exact hm2

/-- Witness for C3 (amended) on the degenerate 1x3 board `X . .`:
K = 1, so the single placed mark is an immediate win. -/
theorem checkGenericWinner_of_hasRun_witness :
    checkGenericWinner [some Mark.X, none, none] 1 3 = some Mark.X :=
  checkGenericWinner_of_hasRun [some Mark.X, none, none] 1 3 Mark.X
    (by decide) (by decide) (by decide)

/-- Claim C4: the outcome is DRAW exactly when the winner check finds no
winner and the board has no empty cell, and IN_PROGRESS exactly when the
winner check finds no winner and at least one empty cell remains. -/
theorem outcome_draw_iff (board : Board) (rows cols : Nat) :
    (outcome board rows cols = Outcome.draw ↔
      checkGenericWinner board rows cols = none ∧
        board.all Option.isSome = true) ∧
    (outcome board rows cols = Outcome.inProgress ↔
      checkGenericWinner board rows cols = none ∧
        board.all Option.isSome = false) := by
  unfold outcome
  cases hw : checkGenericWinner board rows cols with
  | some m =>
    dsimp only
    constructor
    · constructor
      · intro h; exact Outcome.noConfusion h
      · rintro ⟨h1, _⟩; exact Option.noConfusion h1
    · constructor
      · intro h; exact Outcome.noConfusion h
      · rintro ⟨h1, _⟩; exact Option.noConfusion h1
  | none =>
    dsimp only
    by_cases hfull : board.all Option.isSome = true
    · rw [if_pos hfull]
      constructor
      · simp [hfull]
      · simp [hfull]
    · rw [if_neg hfull]
      have hf2 : board.all Option.isSome = false :=
        Bool.eq_false_iff.mpr hfull
      constructor
      · simp [hf2]
      · simp [hf2]

/-- Claim C8: the trial-placement round trip of `minimax` / `findBestMove`
(place a mark at an empty cell, then reset the cell to empty, as the
source does around every recursive call) restores the caller's board
exactly: no mutation leaks. -/
theorem place_unplace_roundtrip (board : Board) (i : Nat) (m : Mark)
    (h : board.get? i = some none) :
    unplace (place board i m) i = board := by
  unfold place unplace
  rw [List.set_set]
  induction board generalizing i with
  | nil => rfl
  | cons c t ih =>
    cases i with
    | zero =>
      simp only [List.get?] at h
      cases h
      rfl
    | succ j =>
      simp only [List.get?] at h
      simp only [List.set]
      rw [ih j h]

/-- Witness for C8 at the empty 1-cell board. -/
theorem place_unplace_roundtrip_witness :
    unplace (place [none] 0 Mark.X) 0 = [none] :=
  place_unplace_roundtrip [none] 0 Mark.X (by decide)

/-- Claim C9: the minimax recursion terminates: each trial placement at an
empty cell strictly decreases the number of empty cells (the recursion's
measure), and the total function `minimax` of the embedding satisfies
exactly the source's recursion equation (so the fuel of the embedding is
invisible and the recursion is well-founded on `countEmpty`). -/
theorem minimax_measure_and_recurrence (board : Board)
    (rows cols depth : Nat) (isMax : Bool) (i : Nat) (m : Mark)
    (h : board.get? i = some none) :
    countEmpty (place board i m) < countEmpty board ∧
    minimax board rows cols depth isMax =
      (match checkGenericWinner board rows cols with
      | some Mark.X => 10
      | some Mark.O => -10
      | none =>
        if board.all Option.isSome then 0
        else if isMax then
          ((emptyIdx board).map fun j =>
            minimax (place board j Mark.X) rows cols (depth + 1)
              false).foldl max negInf
        else
          ((emptyIdx board).map fun j =>
            minimax (place board j Mark.O) rows cols (depth + 1)
              true).foldl min posInf) :=
  ⟨countEmpty_place_lt board i m h, minimax_eq board rows cols depth isMax⟩

/-- Witness for C9 at the empty 1x1 board. -/
theorem minimax_measure_and_recurrence_witness :
    countEmpty (place [none] 0 Mark.X) < countEmpty [none] ∧
    minimax [none] 1 1 0 true =
      (match checkGenericWinner [none] 1 1 with
      | some Mark.X => 10
      | some Mark.O => -10
      | none =>
        if ([none] : Board).all Option.isSome then 0
        else if true then
          ((emptyIdx [none]).map fun j =>
            minimax (place [none] j Mark.X) 1 1 (0 + 1) false).foldl
            max negInf
        else
          ((emptyIdx [none]).map fun j =>
            minimax (place [none] j Mark.O) 1 1 (0 + 1) true).foldl
            min posInf) :=
  minimax_measure_and_recurrence [none] 1 1 0 true 0 Mark.X (by decide)

/-- Claim C10 counterexample: on the (unreachable) board with a complete X
row and a complete O row, the loop detector returns X while the regex
detector returns O — the two detectors disagree. -/
theorem detectors_disagree :
    checkWinner doubleWin3 = some Mark.X ∧
    calculateWinner doubleWin3 = some Mark.O ∧
    (some Mark.X : Option Mark) ≠ some Mark.O := by
  refine ⟨by decide, by decide, by decide⟩

/-- Claim C10 (amended): on every 3x3 board over {X, O, empty} on which not
both marks have a complete line — in particular on every board reachable
in play — the regex detector `calculateWinner` agrees with the loop
detector `checkWinner`; the two can disagree only on boards where both
marks have complete lines (see the counterexample). -/
theorem calculateWinner_eq_checkWinner (board : Board)
    (_h9 : board.length = 9)
    (hnd : ¬ (hasLine board Mark.X ∧ hasLine board Mark.O)) :
    calculateWinner board = checkWinner board := by
  cases hw : checkWinner board with
  | some m =>
    have hl := checkWinner_sound board m hw
    cases hv : calculateWinner board with
    | none => exact absurd hv (calculateWinner_complete board m hl)
    | some m2 =>
      have hl2 := calculateWinner_sound board m2 hv
      cases m <;> cases m2
      · rfl
      · exact absurd ⟨hl, hl2⟩ hnd
      · exact absurd ⟨hl2, hl⟩ hnd
      · rfl
  | none =>
    cases hv : calculateWinner board with
    | none => rfl
    | some m2 =>
      have hl2 := calculateWinner_sound board m2 hv
      exact absurd hw (checkWinner_complete board m2 hl2)

/-- Witness for C10 (amended) at the empty 3x3 board (both detectors
report no winner). -/
theorem calculateWinner_eq_checkWinner_witness :
    calculateWinner empty9 = checkWinner empty9 :=
  calculateWinner_eq_checkWinner empty9 (by decide) (by decide)

/-! ### C6 and C7: concrete values of App.js findBestMove -/

/-- Proof pattern for a maximizing node of value 10: every child is at
most 10 (score range), and one witness child reaches 10. -/
theorem maxNode10 (b : Board) (d : Nat) (j : Nat)
    (hw : checkWinner b = none) (hnf : ¬ b.all Option.isSome = true)
    (hj : j ∈ emptyIdx b)
    (hv : minimaxApp (place b j Mark.X) (d + 1) false = 10) :
    minimaxApp b d true = 10 := by
  rw [minimaxApp_eq, hw]
  dsimp only
  rw [if_neg hnf, if_pos rfl]
  refine le_antisymm ?_ ?_
  · refine foldl_max_le _ _ _ (by norm_num [negInf]) ?_
    intro x hx
    obtain ⟨i, _, rfl⟩ := List.mem_map.mp hx
    exact (minimaxApp_range _ _ _).2
  · have hmem := List.mem_map_of_mem
      (fun i => minimaxApp (place b i Mark.X) (d + 1) false) hj
    exact le_trans (le_of_eq hv.symm) (mem_le_foldl_max _ negInf _ hmem)

theorem foldl_min_all (l : List Int) (a v : Int) (hne : l ≠ [])
    (hall : ∀ x ∈ l, x = v) (hva : v ≤ a) : l.foldl min a = v := by
  cases l with
  | nil => exact absurd rfl hne
  | cons y t =>
    refine le_antisymm ?_ ?_
    · exact le_trans (foldl_min_le_mem (y :: t) a y (List.mem_cons_self y t))
        (le_of_eq (hall y (List.mem_cons_self y t)))
    · exact le_foldl_min _ _ _ hva fun x hx => le_of_eq (hall x hx).symm

/-- The minimizing node after X has played cells 0 and 4: every O reply
leaves X a winning move (cell 8 completes the 0-4-8 diagonal against
every reply but 8; against O at 8, X at 1 forces a win), so the node's
value is 10. -/
theorem minX04 : minimaxApp (place (place empty9 0 Mark.X) 4 Mark.X)
    (0 + 1) false = 10 := by
  rw [minimaxApp_eq]
  rw [show checkWinner (place (place empty9 0 Mark.X) 4 Mark.X) = none from
    by decide]
  dsimp only
  rw [if_neg (show
    ¬ (place (place empty9 0 Mark.X) 4 Mark.X).all Option.isSome = true from
    by decide)]
  rw [if_neg Bool.false_ne_true]
  refine foldl_min_all _ _ _ ?_ ?_ (by norm_num [posInf])
  · rw [show emptyIdx (place (place empty9 0 Mark.X) 4 Mark.X) =
      [1, 2, 3, 5, 6, 7, 8] from by decide]
    simp
  · intro x hx
    obtain ⟨k, hk, rfl⟩ := List.mem_map.mp hx
    rw [show emptyIdx (place (place empty9 0 Mark.X) 4 Mark.X) =
      [1, 2, 3, 5, 6, 7, 8] from by decide] at hk
    simp only [List.mem_cons, List.not_mem_nil, or_false] at hk
    rcases hk with rfl | rfl | rfl | rfl | rfl | rfl | rfl
    · exact maxNode10 _ _ 8 (by decide) (by decide) (by decide) (by decide)
    · exact maxNode10 _ _ 8 (by decide) (by decide) (by decide) (by decide)
    · exact maxNode10 _ _ 8 (by decide) (by decide) (by decide) (by decide)
    · exact maxNode10 _ _ 8 (by decide) (by decide) (by decide) (by decide)
    · exact maxNode10 _ _ 8 (by decide) (by decide) (by decide) (by decide)
    · exact maxNode10 _ _ 8 (by decide) (by decide) (by decide) (by decide)
    · exact maxNode10 _ _ 1 (by decide) (by decide) (by decide)
        (by set_option maxHeartbeats 4000000 in decide)

theorem minimaxApp_X0 : minimaxApp (place empty9 0 Mark.X) 0 true = 10 :=
  maxNode10 (place empty9 0 Mark.X) 0 4 (by decide) (by decide) (by decide)
    minX04

theorem fbmApp_empty_val : findBestMoveApp empty9 Mark.X = some 0 := by
  have hsc0 : fbmScoreApp empty9 Mark.X 0 = 10 := minimaxApp_X0
  have hub : ∀ k, fbmScoreApp empty9 Mark.X k ≤ 10 := by
    intro k
    exact (minimaxApp_range _ _ _).2
  have hp : ((0 : Nat) :: [1, 2, 3, 4, 5, 6, 7, 8]).Pairwise (· < ·) := by
    decide
  obtain ⟨v2, b2, heq, hs2, hmem, hbound, hfirst⟩ :=
    fbmGo_char Mark.X (fbmScoreApp empty9 Mark.X) 0
      [1, 2, 3, 4, 5, 6, 7, 8] hp
  have h0mem : (0 : Nat) ∈ (0 : Nat) :: [1, 2, 3, 4, 5, 6, 7, 8] :=
    List.mem_cons_self _ _
  have hlb : (10 : Int) ≤ v2 := by
    have h1 := (hbound 0 h0mem).1 rfl
    rw [hsc0] at h1
    exact h1
  have hub2 : v2 ≤ 10 := by
    rw [← hs2]
    exact hub b2
  have hb2 : b2 = 0 := by
    have h1 := hfirst 0 h0mem (by rw [hsc0]; omega)
    omega
  have he : emptyIdx empty9 = (0 : Nat) :: [1, 2, 3, 4, 5, 6, 7, 8] := by
    decide
  rw [findBestMoveApp_go, he, heq, hb2]

theorem minimaxApp_A03 : minimaxApp (place boardA03 1 Mark.X) 0 true = 10 :=
  maxNode10 (place boardA03 1 Mark.X) 0 6 (by decide) (by decide) (by decide)
    (by decide)

theorem fbmApp_colX_val : findBestMoveApp boardA03 Mark.X = some 1 := by
  have hsc0 : fbmScoreApp boardA03 Mark.X 1 = 10 := minimaxApp_A03
  have hub : ∀ k, fbmScoreApp boardA03 Mark.X k ≤ 10 := by
    intro k
    exact (minimaxApp_range _ _ _).2
  have hp : ((1 : Nat) :: [2, 4, 5, 6, 7, 8]).Pairwise (· < ·) := by decide
  obtain ⟨v2, b2, heq, hs2, hmem, hbound, hfirst⟩ :=
    fbmGo_char Mark.X (fbmScoreApp boardA03 Mark.X) 1 [2, 4, 5, 6, 7, 8] hp
  have h1mem : (1 : Nat) ∈ (1 : Nat) :: [2, 4, 5, 6, 7, 8] :=
    List.mem_cons_self _ _
  have hlb : (10 : Int) ≤ v2 := by
    have h1 := (hbound 1 h1mem).1 rfl
    rw [hsc0] at h1
    exact h1
  have hub2 : v2 ≤ 10 := by
    rw [← hs2]
    exact hub b2
  have hb2 : b2 = 1 := by
    have h1 := hfirst 1 h1mem (by rw [hsc0]; omega)
    have h2 := hmem
    simp only [List.mem_cons, List.not_mem_nil, or_false] at h2
    omega
  have he : emptyIdx boardA03 = (1 : Nat) :: [2, 4, 5, 6, 7, 8] := by decide
  rw [findBestMoveApp_go, he, heq, hb2]

/-- Claim C6 (amended): on the empty 3x3 board with X to move, App.js's
`findBestMove` returns index 0, the first empty cell: every opening move
attains the extremal score (`findBestMove` calls `minimax` with
`isMaximizing` equal to the mover's own side after placing the mover's
mark, so every trial scores +10), and ties break in ascending index
order. -/
theorem findBestMoveApp_empty_eq_zero :
    findBestMoveApp empty9 Mark.X = some 0 :=
  fbmApp_empty_val

/-- Claim C6 counterexample: the claimed value, center cell 4, is not
returned on the empty 3x3 board. -/
theorem findBestMoveApp_empty_ne_four :
    findBestMoveApp empty9 Mark.X ≠ some 4 := by
  rw [fbmApp_empty_val]
  decide

/-- Claim C7 (amended): on the 3x3 board `X . . / X . . / . . .` with X to
move, App.js's `findBestMove` returns index 1, the first empty cell (all
trials score +10, so the ascending tie-break picks the first empty cell,
not the run-completing cell 6). -/
theorem findBestMoveApp_colX_eq_one :
    findBestMoveApp boardA03 Mark.X = some 1 :=
  fbmApp_colX_val

/-- Claim C7 counterexample: the claimed value, the run-completing cell 6,
is not returned. -/
theorem findBestMoveApp_colX_ne_six :
    findBestMoveApp boardA03 Mark.X ≠ some 6 := by
  rw [fbmApp_colX_val]
  decide
